import Mathlib

/-!
Verification of the range-mapping merge component of the almanac solver
(day5). The Rust data types and functions are embedded as Lean
definitions; machine integers (u64) are modelled as Nat, which agrees
with the source because every subtraction in the source is guarded by
the comparison that makes it non-truncating.
-/

/-- A single mapping rule: every integer s in
[source_start, source_start + length) maps to
dest_start + (s - source_start). Field order follows the Rust struct. -/
structure Mapping where
  length : Nat
  source_start : Nat
  dest_start : Nat
deriving DecidableEq, Repr

/-- Tag recording which operand a leftover merge piece came from. -/
inductive MergeSource where
  | Input (m : Mapping)
  | Output (m : Mapping)
deriving DecidableEq, Repr

/-- Result of merging one input Mapping against one output Mapping. -/
structure MergeResult where
  left : Option MergeSource
  intersection : Option Mapping
  right : Option MergeSource
deriving DecidableEq, Repr

/-- Embeds MergeResult.left_mapping: drop the origin tag of the left piece. -/
def MergeResult.left_mapping (r : MergeResult) : Option Mapping :=
  r.left.map fun s => match s with
    | MergeSource.Input m => m
    | MergeSource.Output m => m

/-- Helper for stating theorems: the Mapping carried by a MergeSource. -/
def MergeSource.mapping : MergeSource → Mapping
  | MergeSource.Input m => m
  | MergeSource.Output m => m

/-- Embeds Mapping::source_end. -/
def Mapping.source_end (m : Mapping) : Nat :=
  m.source_start + m.length

/-- Embeds Mapping::dest_end. -/
def Mapping.dest_end (m : Mapping) : Nat :=
  m.dest_start + m.length

/-- Embeds Mapping::try_map_dest. -/
def Mapping.try_map_dest (m : Mapping) (source : Nat) : Option Nat :=
  if m.source_start ≤ source ∧ source < m.source_start + m.length then
    some (source - m.source_start + m.dest_start)
  else
    none

/-- Embeds Mapping::truncate_end: cap the length, keep the low end. -/
def Mapping.truncate_end (m : Mapping) (length : Nat) : Mapping :=
  { m with length := min m.length length }

/-- Embeds Mapping::truncate_start: cap the length, keep the high end. -/
def Mapping.truncate_start (m : Mapping) (length : Nat) : Mapping :=
  let l := min m.length length
  let delta := m.length - l
  { length := l
    source_start := m.source_start + delta
    dest_start := m.dest_start + delta }

/-- Embeds Mapping::merge: pairwise merge of an input Mapping with an
output Mapping, returning the left leftover, the composed
intersection, and the right leftover. -/
def Mapping.merge (self output : Mapping) : MergeResult :=
  { left :=
      if self.dest_start < output.source_start then
        let length := min self.length (output.source_start - self.dest_start)
        some (MergeSource.Input (self.truncate_end length))
      else if output.source_start < self.dest_start then
        let length := min output.length (self.dest_start - output.source_start)
        some (MergeSource.Output (output.truncate_end length))
      else
        none
    intersection :=
      let start := max self.dest_start output.source_start
      let stop := min self.dest_end output.source_end
      if start < stop then
        some { length := stop - start
               source_start := self.source_start + (start - self.dest_start)
               dest_start := output.dest_start + (start - output.source_start) }
      else
        none
    right :=
      if output.source_end < self.dest_end then
        let length := min self.length (self.dest_end - output.source_end)
        some (MergeSource.Input (self.truncate_start length))
      else if self.dest_end < output.source_end then
        let length := min output.length (output.source_end - self.dest_end)
        some (MergeSource.Output (output.truncate_start length))
      else
        none }

/-- A translation stage: a list of mapping rules, identity elsewhere. -/
structure Map where
  ranges : List Mapping
deriving DecidableEq, Repr

/-- Embeds Map::lookup_dest: image of the first rule whose source
interval contains the point, identity if none does. -/
def Map.lookup_dest (m : Map) (source : Nat) : Nat :=
  (m.ranges.findSome? fun r => r.try_map_dest source).getD source

/-- Stable insertion into a list sorted by the given key, keeping
earlier equal-key elements first; models the stable Rust sort_by_key. -/
def insertByKey (key : Mapping → Nat) (x : Mapping) : List Mapping → List Mapping
  | [] => [x]
  | y :: ys =>
      if key x ≤ key y then x :: y :: ys
      else y :: insertByKey key x ys

/-- Stable sort by key; models Rust Vec::sort_by_key. -/
def sortByKey (key : Mapping → Nat) : List Mapping → List Mapping
  | [] => []
  | x :: xs => insertByKey key x (sortByKey key xs)

/-- Embeds one iteration of the unfold closure inside Map::merge: given
the pending input and output lists, either produce the next state and
the chunk of Mappings emitted this step, or stop. -/
def mergeStep : List Mapping × List Mapping →
    Option ((List Mapping × List Mapping) × List Mapping)
  | (input :: inputs, output :: outputs) =>
      let r := input.merge output
      let merged := r.left_mapping.toList ++ r.intersection.toList
      let state : List Mapping × List Mapping :=
        match r.right with
        | some (MergeSource.Input m) => (m :: inputs, outputs)
        | some (MergeSource.Output m) => (inputs, m :: outputs)
        | none => (inputs, outputs)
      some (state, merged)
  | ([], output :: outputs) => some (([], outputs), [output])
  | (input :: inputs, []) => some ((inputs, []), [input])
  | ([], []) => none

/-- Iterate mergeStep with explicit fuel, concatenating the emitted
chunks; the unfold in the source runs until mergeStep stops, which
(proved below) happens within s.1.length + s.2.length iterations. -/
def runMergeFuel : Nat → List Mapping × List Mapping → List Mapping
  | 0, _ => []
  | fuel + 1, s =>
      match mergeStep s with
      | none => []
      | some (next, chunk) => chunk ++ runMergeFuel fuel next

/-- The full merge sweep: iterate mergeStep to exhaustion. -/
def runMerge (s : List Mapping × List Mapping) : List Mapping :=
  runMergeFuel (s.1.length + s.2.length) s

/-- Embeds Map::merge: sort the input ranges by dest_start and the
output ranges by source_start, then run the merge sweep. -/
def Map.merge (self output : Map) : Map :=
  { ranges := runMerge
      (sortByKey Mapping.dest_start self.ranges,
       sortByKey Mapping.source_start output.ranges) }

/-- Embeds the range-minimum query of answer_b (after parsing): for each
seed range (start, length) and each rule of the composed map, the start
of their non-empty intersection is a candidate; return the minimum of
the candidate images, none when there is no candidate. -/
def Map.min_dest_over_ranges (map : Map) (seedRanges : List (Nat × Nat)) : Option Nat :=
  ((seedRanges.flatMap fun p =>
      map.ranges.filterMap fun r =>
        let stop := min (p.1 + p.2) r.source_end
        let start := max p.1 r.source_start
        if start < stop then some start else none).map
    fun s => map.lookup_dest s).min?

/-- The sweep stops exactly when both pending lists are empty. -/
theorem mergeStep_eq_none_iff (s : List Mapping × List Mapping) :
    mergeStep s = none ↔ s = ([], []) := by
  obtain ⟨l1, l2⟩ := s
  cases l1 <;> cases l2 <;> simp [mergeStep]

/-- Each iteration of the sweep strictly decreases the combined number
of pending pieces. -/
theorem mergeStep_measure_lt (s next : List Mapping × List Mapping)
    (chunk : List Mapping) (h : mergeStep s = some (next, chunk)) :
    next.1.length + next.2.length < s.1.length + s.2.length := by
  obtain ⟨l1, l2⟩ := s
  cases l1 with
  | nil =>
      cases l2 with
      | nil => simp [mergeStep] at h
      | cons o os =>
          simp [mergeStep] at h
          obtain ⟨h1, _⟩ := h
          subst h1
          simp
  | cons i is =>
      cases l2 with
      | nil =>
          simp [mergeStep] at h
          obtain ⟨h1, _⟩ := h
          subst h1
          simp
      | cons o os =>
          rcases hr : (Mapping.merge i o).right with _ | ms
          · simp [mergeStep, hr] at h
            obtain ⟨h1, _⟩ := h
            subst h1
            simp
            omega
          · cases ms with
            | Input m =>
                simp [mergeStep, hr] at h
                obtain ⟨h1, _⟩ := h
                subst h1
                simp
            | Output m =>
                simp [mergeStep, hr] at h
                obtain ⟨h1, _⟩ := h
                subst h1
                simp

/-- Any two sufficient fuel amounts give the same sweep result. -/
theorem runMergeFuel_congr :
    ∀ (f g : Nat) (s : List Mapping × List Mapping),
      s.1.length + s.2.length ≤ f → s.1.length + s.2.length ≤ g →
      runMergeFuel f s = runMergeFuel g s := by
  intro f
  induction f with
  | zero =>
      intro g s hf _
      obtain ⟨l1, l2⟩ := s
      have h1 : l1 = [] := by
        cases l1
        · rfl
        · simp at hf
      have h2 : l2 = [] := by
        cases l2
        · rfl
        · simp at hf
      subst h1; subst h2
      cases g with
      | zero => rfl
      | succ g => simp [runMergeFuel, mergeStep]
  | succ f ih =>
      intro g s hf hg
      by_cases hs : s = ([], [])
      · subst hs
        cases g with
        | zero => simp [runMergeFuel, mergeStep]
        | succ g => simp [runMergeFuel, mergeStep]
      · have hstep : mergeStep s ≠ none := by
          intro hnone
          exact hs ((mergeStep_eq_none_iff s).mp hnone)
        rcases hsome : mergeStep s with _ | ⟨next, chunk⟩
        · exact absurd hsome hstep
        · have hlt := mergeStep_measure_lt s next chunk hsome
          have hpos : 1 ≤ s.1.length + s.2.length := by omega
          cases g with
          | zero => omega
          | succ g =>
              simp only [runMergeFuel, hsome]
              have : runMergeFuel f next = runMergeFuel g next :=
                ih g next (by omega) (by omega)
              rw [this]

/-- Unfolding equation for the full sweep: runMerge runs one step of
mergeStep and recurses on the produced state. -/
theorem runMerge_eq (s : List Mapping × List Mapping) :
    runMerge s =
      match mergeStep s with
      | none => []
      | some (next, chunk) => chunk ++ runMerge next := by
  rcases hsome : mergeStep s with _ | ⟨next, chunk⟩
  · have hs : s = ([], []) := (mergeStep_eq_none_iff s).mp hsome
    subst hs
    rfl
  · have hlt := mergeStep_measure_lt s next chunk hsome
    have hpos : 1 ≤ s.1.length + s.2.length := by omega
    unfold runMerge
    rcases hm : s.1.length + s.2.length with _ | f
    · omega
    · simp only [runMergeFuel, hsome]
      have : runMergeFuel f next =
          runMergeFuel (next.1.length + next.2.length) next :=
        runMergeFuel_congr f (next.1.length + next.2.length) next (by omega)
          (by omega)
      rw [this]

/-- Embeds Mapping::new: builds the record from the arguments, in the
argument order dest_start, source_start, length, with no validation. -/
def Mapping.new (dest_start source_start length : Nat) : Mapping :=
  { length := length, source_start := source_start, dest_start := dest_start }

/-- Truncating by a pre-capped amount equals truncating by the raw
amount, because truncate_end caps at the length itself. -/
theorem truncate_end_min (m : Mapping) (n : Nat) :
    m.truncate_end (min m.length n) = m.truncate_end n := by
  simp [Mapping.truncate_end, Nat.min_assoc]

/-- Truncating from the start by a pre-capped amount equals truncating
by the raw amount, because truncate_start caps at the length itself. -/
theorem truncate_start_min (m : Mapping) (n : Nat) :
    m.truncate_start (min m.length n) = m.truncate_start n := by
  simp [Mapping.truncate_start, Nat.min_assoc]

/-- Claim C8 is a code bug: Mapping::new performs no validation, so a
Mapping with length zero is silently created and propagated instead of
being rejected with an InvalidMapping error; no error type exists. -/
theorem claim_C8_new_no_validation :
    Mapping.new 1 2 0 = { length := 0, source_start := 2, dest_start := 1 } := rfl

/-- Claim C1 is a code bug: for the stage A with the single rule
mapping source 100 to destination 0 and the stage B with the single
rule mapping source 0 to destination 50, the point 0 passes through A
by identity and is then sent to 50 by B, but the merged map sends it to
0, because the intersection step consumes the rule of B for the
destination interval of A and loses the identity route into B. -/
theorem claim_C1_composition_fails :
    Map.lookup_dest ((Map.mk [⟨1, 100, 0⟩]).merge (Map.mk [⟨1, 0, 50⟩])) 0 = 0 ∧
    Map.lookup_dest (Map.mk [⟨1, 0, 50⟩])
      (Map.lookup_dest (Map.mk [⟨1, 100, 0⟩]) 0) = 50 := by
  decide

/-- Claim C2: the intersection piece of the pairwise merge covers
exactly the overlap of the destination interval of the input with the
source interval of the output, translated back to input-source
coordinates and forward to output-destination coordinates, and is none
exactly when the overlap is empty. -/
theorem claim_C2_intersection (A B : Mapping) :
    (A.merge B).intersection =
      if max A.dest_start B.source_start < min A.dest_end B.source_end then
        some { length := min A.dest_end B.source_end - max A.dest_start B.source_start
               source_start :=
                 A.source_start + (max A.dest_start B.source_start - A.dest_start)
               dest_start :=
                 B.dest_start + (max A.dest_start B.source_start - B.source_start) }
      else none := rfl

/-- Claim C3: the left piece comes from whichever operand starts
strictly first in the shared coordinate space, truncated at the overlap
start and tagged with its origin, no piece when the starts are equal;
the right piece comes from whichever operand ends strictly last,
truncated from the start, tagged with its origin, no piece when the
ends are equal. -/
theorem claim_C3_left_right (A B : Mapping) :
    ((A.merge B).left =
      if A.dest_start < B.source_start then
        some (MergeSource.Input (A.truncate_end (B.source_start - A.dest_start)))
      else if B.source_start < A.dest_start then
        some (MergeSource.Output (B.truncate_end (A.dest_start - B.source_start)))
      else none) ∧
    ((A.merge B).right =
      if B.source_end < A.dest_end then
        some (MergeSource.Input (A.truncate_start (A.dest_end - B.source_end)))
      else if A.dest_end < B.source_end then
        some (MergeSource.Output (B.truncate_start (B.source_end - A.dest_end)))
      else none) := by
  constructor
  · show (if A.dest_start < B.source_start then
        some (MergeSource.Input (A.truncate_end
          (min A.length (B.source_start - A.dest_start))))
      else if B.source_start < A.dest_start then
        some (MergeSource.Output (B.truncate_end
          (min B.length (A.dest_start - B.source_start))))
      else none) = _
    rw [truncate_end_min, truncate_end_min]
  · show (if B.source_end < A.dest_end then
        some (MergeSource.Input (A.truncate_start
          (min A.length (A.dest_end - B.source_end))))
      else if A.dest_end < B.source_end then
        some (MergeSource.Output (B.truncate_start
          (min B.length (B.source_end - A.dest_end))))
      else none) = _
    rw [truncate_start_min, truncate_start_min]

/-- Claim C9: both truncations preserve the affine offset between the
destination start and the source start, and a cap at least as large as
the length leaves the Mapping unchanged. -/
theorem claim_C9_truncate (m : Mapping) (n : Nat) :
    (((m.truncate_end n).dest_start : Int) - (m.truncate_end n).source_start =
        (m.dest_start : Int) - m.source_start) ∧
    (((m.truncate_start n).dest_start : Int) - (m.truncate_start n).source_start =
        (m.dest_start : Int) - m.source_start) ∧
    (m.length ≤ n → m.truncate_end n = m ∧ m.truncate_start n = m) := by
  obtain ⟨l, s, d⟩ := m
  refine ⟨?_, ?_, fun h => ⟨?_, ?_⟩⟩
  · simp [Mapping.truncate_end]
  · simp [Mapping.truncate_start]
  · simp [Mapping.truncate_end] at h ⊢
    omega
  · simp [Mapping.truncate_start] at h ⊢
    omega

/-- Witness for claim C9 at a concrete Mapping and cap. -/
theorem claim_C9_witness :
    (Mapping.mk 5 2 9).truncate_end 7 = Mapping.mk 5 2 9 ∧
    (Mapping.mk 5 2 9).truncate_start 7 = Mapping.mk 5 2 9 :=
  (claim_C9_truncate ⟨5, 2, 9⟩ 7).2.2 (by decide)

/-- Counterexample to claim C4: when the pairwise merge of the heads
produces a left Input piece and a right Output piece, the sweep emits
the left piece into the result and pushes back only the right piece; it
does not push the left piece onto the input list as claimed. -/
theorem claim_C4_cex :
    mergeStep ([⟨1, 0, 0⟩], [⟨1, 5, 50⟩]) =
      some (([], [⟨1, 5, 50⟩]), [⟨1, 0, 0⟩]) ∧
    mergeStep ([⟨1, 0, 0⟩], [⟨1, 5, 50⟩]) ≠
      some (([⟨1, 0, 0⟩], [⟨1, 5, 50⟩]), []) := by
  decide

/-- Claim C4 as amended: every sweep step on two non-empty lists runs
the pairwise merge of the heads, emits the left leftover piece (if any)
and then the intersection (if any) into the result, and pushes only the
right leftover piece back onto the front of the list named by its tag,
recursing on the remaining lists. -/
theorem claim_C4_sweep_step (input output : Mapping)
    (inputs outputs : List Mapping) :
    runMerge (input :: inputs, output :: outputs) =
      ((input.merge output).left_mapping.toList ++
          (input.merge output).intersection.toList) ++
        runMerge
          (match (input.merge output).right with
           | some (MergeSource.Input m) => (m :: inputs, outputs)
           | some (MergeSource.Output m) => (inputs, m :: outputs)
           | none => (inputs, outputs)) := by
  rw [runMerge_eq]
  rfl

/-- Draining lemma: with no pending inputs the sweep returns the
pending outputs unchanged. -/
theorem runMerge_nil_inputs : ∀ outs : List Mapping, runMerge ([], outs) = outs := by
  intro outs
  induction outs with
  | nil => rfl
  | cons o os ih =>
      rw [runMerge_eq]
      simp only [mergeStep]
      rw [ih]
      rfl

/-- Draining lemma: with no pending outputs the sweep returns the
pending inputs unchanged. -/
theorem runMerge_nil_outputs : ∀ ins : List Mapping, runMerge (ins, []) = ins := by
  intro ins
  induction ins with
  | nil => rfl
  | cons i is ih =>
      rw [runMerge_eq]
      simp only [mergeStep]
      rw [ih]
      rfl

/-- Claim C6: the sweep terminates on every pair of finite lists; each
step strictly decreases the combined pending count, the step function
stops exactly on two empty lists, and once one list is exhausted the
other is drained into the result unchanged. -/
theorem claim_C6_termination :
    (∀ (s next : List Mapping × List Mapping) (chunk : List Mapping),
        mergeStep s = some (next, chunk) →
        next.1.length + next.2.length < s.1.length + s.2.length) ∧
    mergeStep ([], []) = none ∧
    (∀ outs : List Mapping, runMerge ([], outs) = outs) ∧
    (∀ ins : List Mapping, runMerge (ins, []) = ins) :=
  ⟨mergeStep_measure_lt, rfl, runMerge_nil_inputs, runMerge_nil_outputs⟩

/-- Witness for claim C6 at concrete states. -/
theorem claim_C6_witness :
    (((([] : List Mapping), ([⟨1, 5, 50⟩] : List Mapping))).1.length +
        ((([] : List Mapping), ([⟨1, 5, 50⟩] : List Mapping))).2.length <
      ((([⟨1, 0, 0⟩] : List Mapping), ([⟨1, 5, 50⟩] : List Mapping))).1.length +
        ((([⟨1, 0, 0⟩] : List Mapping), ([⟨1, 5, 50⟩] : List Mapping))).2.length) ∧
    runMerge ([], [⟨1, 2, 3⟩]) = [⟨1, 2, 3⟩] :=
  ⟨claim_C6_termination.1 ([⟨1, 0, 0⟩], [⟨1, 5, 50⟩]) ([], [⟨1, 5, 50⟩])
      [⟨1, 0, 0⟩] (by decide),
    claim_C6_termination.2.2.1 [⟨1, 2, 3⟩]⟩

/-- Stable insertion grows the list by exactly one element. -/
theorem length_insertByKey (key : Mapping → Nat) (x : Mapping) :
    ∀ l : List Mapping, (insertByKey key x l).length = l.length + 1 := by
  intro l
  induction l with
  | nil => rfl
  | cons y ys ih =>
      simp only [insertByKey]
      split
      · simp
      · simp [ih]

/-- The stable sort preserves the number of elements. -/
theorem length_sortByKey (key : Mapping → Nat) :
    ∀ l : List Mapping, (sortByKey key l).length = l.length := by
  intro l
  induction l with
  | nil => rfl
  | cons x xs ih => simp [sortByKey, length_insertByKey, ih]

/-- The sweep emits at most two pieces per consumed element, for any
amount of fuel. -/
theorem runMergeFuel_length_le :
    ∀ (f : Nat) (s : List Mapping × List Mapping),
      (runMergeFuel f s).length ≤ 2 * (s.1.length + s.2.length) := by
  intro f
  induction f with
  | zero =>
      intro s
      simp [runMergeFuel]
  | succ f ih =>
      intro s
      obtain ⟨l1, l2⟩ := s
      cases l1 with
      | nil =>
          cases l2 with
          | nil => simp [runMergeFuel, mergeStep]
          | cons o os =>
              have h := ih ([], os)
              simp only [runMergeFuel, mergeStep]
              simp only [List.length_nil, List.length_cons] at h ⊢
              simp
              omega
      | cons i is =>
          cases l2 with
          | nil =>
              have h := ih (is, [])
              simp only [runMergeFuel, mergeStep]
              simp only [List.length_nil, List.length_cons] at h ⊢
              simp
              omega
          | cons o os =>
              have hleft : (i.merge o).left_mapping.toList.length ≤ 1 := by
                rcases (i.merge o).left_mapping with _ | m <;> simp
              have hinter : (i.merge o).intersection.toList.length ≤ 1 := by
                rcases (i.merge o).intersection with _ | m2 <;> simp
              simp only [runMergeFuel, mergeStep]
              rcases hr : (i.merge o).right with _ | ms
              · have h := ih (is, os)
                simp only [hr, List.length_append, List.length_cons,
                  List.length_nil] at h ⊢
                omega
              · cases ms with
                | Input m =>
                    have h := ih (m :: is, os)
                    simp only [hr, List.length_append, List.length_cons,
                      List.length_nil] at h ⊢
                    omega
                | Output m =>
                    have h := ih (is, m :: os)
                    simp only [hr, List.length_append, List.length_cons,
                      List.length_nil] at h ⊢
                    omega

/-- Counterexample to claim C7: one input rule merged against one
output rule can produce three pieces, more than the claimed bound of
one plus one. -/
theorem claim_C7_cex :
    ¬ ((Map.mk [⟨10, 0, 0⟩]).merge (Map.mk [⟨2, 3, 100⟩])).ranges.length ≤
        (Map.mk [⟨10, 0, 0⟩]).ranges.length + (Map.mk [⟨2, 3, 100⟩]).ranges.length := by
  decide

/-- Claim C7 as amended: the number of rules produced by the map-level
merge is at most twice the total number of rules in the two operands. -/
theorem claim_C7_size_bound (A B : Map) :
    (A.merge B).ranges.length ≤ 2 * (A.ranges.length + B.ranges.length) := by
  have h := runMergeFuel_length_le
    ((sortByKey Mapping.dest_start A.ranges).length +
      (sortByKey Mapping.source_start B.ranges).length)
    (sortByKey Mapping.dest_start A.ranges, sortByKey Mapping.source_start B.ranges)
  simpa [Map.merge, runMerge, length_sortByKey] using h

/-- left_mapping is the untagged left piece. -/
theorem left_mapping_eq (r : MergeResult) :
    r.left_mapping = r.left.map MergeSource.mapping := by
  rcases r with ⟨l, i, ri⟩
  rcases l with _ | s
  · rfl
  · cases s <;> rfl

/-- If both operands have positive length, so does the left piece. -/
theorem merge_left_pos (A B : Mapping) (hA : 0 < A.length) (hB : 0 < B.length)
    (s : MergeSource) (h : (A.merge B).left = some s) : 0 < s.mapping.length := by
  simp only [Mapping.merge] at h
  split at h
  · injection h with h2
    subst h2
    simp only [MergeSource.mapping, Mapping.truncate_end]
    simp
    omega
  · split at h
    · injection h with h2
      subst h2
      simp only [MergeSource.mapping, Mapping.truncate_end]
      simp
      omega
    · exact absurd h (by simp)

/-- The intersection piece always has positive length. -/
theorem merge_inter_pos (A B : Mapping) (m : Mapping)
    (h : (A.merge B).intersection = some m) : 0 < m.length := by
  simp only [Mapping.merge] at h
  split at h
  · injection h with h2
    subst h2
    simp
    omega
  · exact absurd h (by simp)

/-- If both operands have positive length, so does the right piece. -/
theorem merge_right_pos (A B : Mapping) (hA : 0 < A.length) (hB : 0 < B.length)
    (s : MergeSource) (h : (A.merge B).right = some s) : 0 < s.mapping.length := by
  simp only [Mapping.merge] at h
  split at h
  · injection h with h2
    subst h2
    simp only [MergeSource.mapping, Mapping.truncate_start]
    simp
    omega
  · split at h
    · injection h with h2
      subst h2
      simp only [MergeSource.mapping, Mapping.truncate_start]
      simp
      omega
    · exact absurd h (by simp)

/-- Stable insertion adds no element beyond the inserted one. -/
theorem mem_insertByKey (key : Mapping → Nat) (x : Mapping) :
    ∀ (l : List Mapping) (y : Mapping),
      y ∈ insertByKey key x l → y = x ∨ y ∈ l := by
  intro l
  induction l with
  | nil =>
      intro y hy
      simp [insertByKey] at hy
      left
      exact hy
  | cons z zs ih =>
      intro y hy
      simp only [insertByKey] at hy
      split at hy
      · rcases List.mem_cons.mp hy with h1 | h2
        · left; exact h1
        · right; exact h2
      · rcases List.mem_cons.mp hy with h1 | h2
        · right; simp [h1]
        · rcases ih y h2 with h3 | h4
          · left; exact h3
          · right; simp [h4]

/-- The stable sort adds no elements. -/
theorem mem_sortByKey (key : Mapping → Nat) :
    ∀ (l : List Mapping) (y : Mapping), y ∈ sortByKey key l → y ∈ l := by
  intro l
  induction l with
  | nil => intro y hy; simp [sortByKey] at hy
  | cons x xs ih =>
      intro y hy
      simp only [sortByKey] at hy
      rcases mem_insertByKey key x (sortByKey key xs) y hy with h1 | h2
      · simp [h1]
      · exact List.mem_cons_of_mem x (ih y h2)

/-- When every pending piece has positive length, every piece the sweep
emits has positive length, for any amount of fuel. -/
theorem runMergeFuel_pos :
    ∀ (f : Nat) (s : List Mapping × List Mapping),
      (∀ m ∈ s.1, 0 < m.length) → (∀ m ∈ s.2, 0 < m.length) →
      ∀ m ∈ runMergeFuel f s, 0 < m.length := by
  intro f
  induction f with
  | zero =>
      intro s h1 h2 m hm
      simp [runMergeFuel] at hm
  | succ f ih =>
      intro s h1 h2 m hm
      obtain ⟨l1, l2⟩ := s
      cases l1 with
      | nil =>
          cases l2 with
          | nil => simp [runMergeFuel, mergeStep] at hm
          | cons o os =>
              simp only [runMergeFuel, mergeStep] at hm
              rcases List.mem_append.mp hm with hmo | hml
              · have hmeq : m = o := by simpa using hmo
                rw [hmeq]
                exact h2 o (by simp)
              · exact ih ([], os) (by simp)
                  (fun x hx => h2 x (List.mem_cons_of_mem _ hx)) m hml
      | cons i is =>
          cases l2 with
          | nil =>
              simp only [runMergeFuel, mergeStep] at hm
              rcases List.mem_append.mp hm with hmi | hml
              · have hmeq : m = i := by simpa using hmi
                rw [hmeq]
                exact h1 i (by simp)
              · exact ih (is, []) (fun x hx => h1 x (List.mem_cons_of_mem _ hx))
                  (by simp) m hml
          | cons o os =>
              have hi : 0 < i.length := h1 i (by simp)
              have ho : 0 < o.length := h2 o (by simp)
              have h1t : ∀ x ∈ is, 0 < x.length :=
                fun x hx => h1 x (List.mem_cons_of_mem _ hx)
              have h2t : ∀ x ∈ os, 0 < x.length :=
                fun x hx => h2 x (List.mem_cons_of_mem _ hx)
              rcases hr : (i.merge o).right with _ | ms
              · simp only [runMergeFuel, mergeStep, hr] at hm
                rcases List.mem_append.mp hm with hchunk | hrec
                · rcases List.mem_append.mp hchunk with hl | hin
                  · rcases hls : (i.merge o).left with _ | ls
                    · rw [left_mapping_eq, hls] at hl
                      simp at hl
                    · rw [left_mapping_eq, hls] at hl
                      have : m = ls.mapping := by simpa using hl
                      subst this
                      exact merge_left_pos i o hi ho ls hls
                  · rcases him : (i.merge o).intersection with _ | mi
                    · rw [him] at hin
                      simp at hin
                    · rw [him] at hin
                      have hmeq : m = mi := by simpa using hin
                      rw [hmeq]
                      exact merge_inter_pos i o mi him
                · exact ih (is, os) h1t h2t m hrec
              · cases ms with
                | Input m2 =>
                    have hm2 : 0 < m2.length := by
                      have := merge_right_pos i o hi ho (MergeSource.Input m2) hr
                      simpa [MergeSource.mapping] using this
                    simp only [runMergeFuel, mergeStep, hr] at hm
                    rcases List.mem_append.mp hm with hchunk | hrec
                    · rcases List.mem_append.mp hchunk with hl | hin
                      · rcases hls : (i.merge o).left with _ | ls
                        · rw [left_mapping_eq, hls] at hl
                          simp at hl
                        · rw [left_mapping_eq, hls] at hl
                          have : m = ls.mapping := by simpa using hl
                          subst this
                          exact merge_left_pos i o hi ho ls hls
                      · rcases him : (i.merge o).intersection with _ | mi
                        · rw [him] at hin
                          simp at hin
                        · rw [him] at hin
                          have hmeq : m = mi := by simpa using hin
                          rw [hmeq]
                          exact merge_inter_pos i o mi him
                    · refine ih (m2 :: is, os) ?_ h2t m hrec
                      intro x hx
                      rcases List.mem_cons.mp hx with h3 | h4
                      · subst h3; exact hm2
                      · exact h1t x h4
                | Output m2 =>
                    have hm2 : 0 < m2.length := by
                      have := merge_right_pos i o hi ho (MergeSource.Output m2) hr
                      simpa [MergeSource.mapping] using this
                    simp only [runMergeFuel, mergeStep, hr] at hm
                    rcases List.mem_append.mp hm with hchunk | hrec
                    · rcases List.mem_append.mp hchunk with hl | hin
                      · rcases hls : (i.merge o).left with _ | ls
                        · rw [left_mapping_eq, hls] at hl
                          simp at hl
                        · rw [left_mapping_eq, hls] at hl
                          have : m = ls.mapping := by simpa using hl
                          subst this
                          exact merge_left_pos i o hi ho ls hls
                      · rcases him : (i.merge o).intersection with _ | mi
                        · rw [him] at hin
                          simp at hin
                        · rw [him] at hin
                          have hmeq : m = mi := by simpa using hin
                          rw [hmeq]
                          exact merge_inter_pos i o mi him
                    · refine ih (is, m2 :: os) h1t ?_ m hrec
                      intro x hx
                      rcases List.mem_cons.mp hx with h3 | h4
                      · subst h3; exact hm2
                      · exact h2t x h4

/-- Claim C5: when every rule of both operands has positive length, the
pairwise merge never produces a zero-length left, intersection, or
right piece, the map-level merge never emits a zero-length rule, and
exactly abutting ranges produce no piece at all on that side. -/
theorem claim_C5_no_zero_length :
    (∀ A B : Mapping, 0 < A.length → 0 < B.length →
      (∀ s, (A.merge B).left = some s → 0 < s.mapping.length) ∧
      (∀ m, (A.merge B).intersection = some m → 0 < m.length) ∧
      (∀ s, (A.merge B).right = some s → 0 < s.mapping.length)) ∧
    (∀ A B : Mapping,
      (A.dest_start = B.source_start → (A.merge B).left = none) ∧
      (A.dest_end = B.source_end → (A.merge B).right = none)) ∧
    (∀ A B : Map,
      (∀ m ∈ A.ranges, 0 < m.length) → (∀ m ∈ B.ranges, 0 < m.length) →
      ∀ m ∈ (A.merge B).ranges, 0 < m.length) := by
  refine ⟨?_, ?_, ?_⟩
  · intro A B hA hB
    exact ⟨fun s h => merge_left_pos A B hA hB s h,
      fun m h => merge_inter_pos A B m h,
      fun s h => merge_right_pos A B hA hB s h⟩
  · intro A B
    constructor
    · intro h
      simp [Mapping.merge, h]
    · intro h
      simp [Mapping.merge, h]
  · intro A B hA hB m hm
    refine runMergeFuel_pos _ _ ?_ ?_ m hm
    · intro x hx
      exact hA x (mem_sortByKey Mapping.dest_start A.ranges x hx)
    · intro x hx
      exact hB x (mem_sortByKey Mapping.source_start B.ranges x hx)

/-- Witness for claim C5: a piece of a concrete map-level merge and the
intersection piece of a concrete pairwise merge have positive length. -/
theorem claim_C5_witness :
    0 < (Mapping.mk 35 15 0).length ∧ 0 < (Mapping.mk 2 98 35).length :=
  ⟨claim_C5_no_zero_length.2.2 (Map.mk [⟨2, 98, 50⟩]) (Map.mk [⟨37, 15, 0⟩])
      (by decide) (by decide) ⟨35, 15, 0⟩ (by decide),
    (claim_C5_no_zero_length.1 ⟨2, 98, 50⟩ ⟨37, 15, 0⟩ (by decide)
        (by decide)).2.1 ⟨2, 98, 35⟩ (by decide)⟩

/-- Claim C10: the range-based minimum query returns none whenever no
queried range meets the source interval of any rule of the map;
uncovered points are never candidates. -/
theorem claim_C10_range_min_none (map : Map) (seedRanges : List (Nat × Nat))
    (h : ∀ p ∈ seedRanges, ∀ r ∈ map.ranges,
        min (p.1 + p.2) r.source_end ≤ max p.1 r.source_start) :
    map.min_dest_over_ranges seedRanges = none := by
  unfold Map.min_dest_over_ranges
  have hempty :
      (seedRanges.flatMap fun p =>
        map.ranges.filterMap fun r =>
          let stop := min (p.1 + p.2) r.source_end
          let start := max p.1 r.source_start
          if start < stop then some start else none) = [] := by
    refine List.flatMap_eq_nil_iff.mpr ?_
    intro p hp
    refine List.filterMap_eq_nil_iff.mpr ?_
    intro r hr
    have := h p hp r hr
    simp only []
    rw [if_neg]
    omega
  rw [hempty]
  rfl

/-- Witness for claim C10: a seed range disjoint from the single rule of
a concrete map yields no minimum. -/
theorem claim_C10_witness :
    Map.min_dest_over_ranges (Map.mk [⟨5, 10, 0⟩]) [(0, 5)] = none :=
  claim_C10_range_min_none (Map.mk [⟨5, 10, 0⟩]) [(0, 5)] (by decide)
